import Mathlib

/-!
Shallow embedding of the `image-ffi` filter plugins (`blur_plugin` and
`mirror_plugin`) and proofs about them.

Byte buffers are modelled as `List Nat`; a Rust operation that can panic
(out-of-bounds slice indexing, `split_at_mut`, `Vec::swap`) is modelled in the
`Option` monad, `none` meaning a panic.  Machine integers (`u32`, `usize`) are
modelled as `Nat` with explicit bound checks where the code checks them
(`checked_mul` against `2 ^ 64`, `str::parse::<u32>` against `2 ^ 32`).
-/

namespace ImageFFI

/-! ### Primitive slice operations -/

/-- `(l.drop i).take n`: the sub-slice `l[i .. i+n]`. -/
def extract (l : List Nat) (i n : Nat) : List Nat := (l.drop i).take n

/-- Overwrite `l[i .. i + d.length]` with `d` (clipped at the end of `l`);
models `copy_from_slice` into the sub-slice starting at `i`. -/
def writeRange (l : List Nat) (i : Nat) (d : List Nat) : List Nat :=
  l.take i ++ d.take (l.length - i) ++ l.drop (i + d.length)

/-- Rust `slice::swap(i, j)`: panics (`none`) when an index is out of
bounds, otherwise exchanges the two bytes. -/
def swapBytes (buf : List Nat) (i j : Nat) : Option (List Nat) :=
  if i < buf.length ∧ j < buf.length then
    some ((buf.set i (buf.getD j 0)).set j (buf.getD i 0))
  else none

/-! ### `mirror_plugin`: `flip_top_bottom_in_place` -/

/-- One iteration of the row loop of `flip_top_bottom_in_place` at row `y`:
`split_at_mut(bottom)`, take `head[top..top+row_bytes]` and
`tail[..row_bytes]`, and exchange the two rows through the scratch row `tmp`.
The guard collects exactly the bounds under which the Rust slice operations do
not panic. -/
def rowSwapStep (rb h : Nat) (buf : List Nat) (y : Nat) : Option (List Nat) :=
  let top := y * rb
  let bottom := (h - 1 - y) * rb
  if bottom ≤ buf.length ∧ top + rb ≤ bottom ∧ bottom + rb ≤ buf.length then
    some (writeRange (writeRange buf top (extract buf bottom rb)) bottom
      (extract buf top rb))
  else none

/-- `fn flip_top_bottom_in_place(width, height, buf)` of
`src/mirror_plugin/src/lib.rs`. -/
def flip_top_bottom_in_place (width height : Nat) (buf : List Nat) :
    Option (List Nat) :=
  let rb := width * 4
  if rb = 0 ∨ height = 0 then some buf
  else (List.range (height / 2)).foldlM (rowSwapStep rb height) buf

/-! ### `mirror_plugin`: `mirror_left_right_in_place` -/

/-- The four `buf.swap(left + c, right + c)` calls of the inner pixel loop of
`mirror_left_right_in_place`. -/
def swapPixel (w rb y x : Nat) (buf : List Nat) : Option (List Nat) := do
  let left := y * rb + x * 4
  let right := y * rb + (w - 1 - x) * 4
  let b0 ← swapBytes buf (left + 0) (right + 0)
  let b1 ← swapBytes b0 (left + 1) (right + 1)
  let b2 ← swapBytes b1 (left + 2) (right + 2)
  swapBytes b2 (left + 3) (right + 3)

/-- The inner `for x in 0..(width / 2)` loop of `mirror_left_right_in_place`
for row `y`. -/
def mirrorRow (w rb : Nat) (buf : List Nat) (y : Nat) : Option (List Nat) :=
  (List.range (w / 2)).foldlM (fun b x => swapPixel w rb y x b) buf

/-- `fn mirror_left_right_in_place(width, height, buf)` of
`src/mirror_plugin/src/lib.rs`. -/
def mirror_left_right_in_place (width height : Nat) (buf : List Nat) :
    Option (List Nat) :=
  let rb := width * 4
  if width = 0 ∨ height = 0 then some buf
  else (List.range height).foldlM (mirrorRow width rb) buf

/-! ### `blur_plugin`: `blur_in_place` -/

/-- The per-pixel body of the blur double loop: the f32 weighted average of
the neighborhood window clipped to the image (weights `1 / (1 + dist)`),
divided by the weight sum, rounded and clamped to `0..255`, yielding the four
output bytes of pixel `(x, y)` from the frozen source prefix `src`.  The
arithmetic is IEEE-754 `f32`, which this embedding does not model; the
development is parameterized by the kernel `K width height radius src y x`,
and every property proved below holds for each choice of kernel.  The source
kernel always yields exactly four bytes (it writes `dst[out_idx .. out_idx+4]`);
theorems that need this take it as a hypothesis. -/
def BlurKernel : Type := Nat → Nat → Nat → List Nat → Nat → Nat → List Nat

/-- The scratch buffer `tmp` after the double loop of one blur iteration:
starting from `vec![0u8; expected_len]`, the kernel output for pixel `(x, y)`
is written at `out_idx = (y * width + x) * 4` for every `y < height`,
`x < width`, reading only the frozen source `src`. -/
def blurTmp (K : BlurKernel) (w h r : Nat) (src : List Nat) : List Nat :=
  (List.range h).foldl (fun t y =>
    (List.range w).foldl (fun t x =>
      writeRange t ((y * w + x) * 4) (K w h r src y x)) t)
    (List.replicate (w * 4 * h) 0)

/-- One iteration of the `for _ in 0..iterations` loop of `blur_in_place`:
freeze `src = buf[..expected_len]`, fill the scratch buffer `tmp` pixel by
pixel, and copy `tmp` back over `buf[..expected_len]`.  (`tmp` is fully
overwritten by the double loop, so starting each iteration from a zeroed
scratch buffer agrees with the source, which reuses one allocation.) -/
def blurPass (K : BlurKernel) (w h r : Nat) (buf : List Nat) : List Nat :=
  writeRange buf 0 (blurTmp K w h r (buf.take (w * 4 * h)))

/-- `fn blur_in_place(width, height, buf, radius, iterations)` of
`src/blur_plugin/src/lib.rs`: guard against zero parameters, guard
`buf.len() < expected_len`, then iterate the per-iteration pass. -/
def blur_in_place (K : BlurKernel) (width height : Nat) (buf : List Nat)
    (radius iterations : Nat) : List Nat :=
  if width = 0 ∨ height = 0 ∨ radius = 0 ∨ iterations = 0 then buf
  else if buf.length < width * 4 * height then buf
  else (blurPass K width height radius)^[iterations] buf

/-! ### `blur_plugin`: `get_u32` and `process_image` -/

/-- `str::find` for a substring: index of the first occurrence of `need` in
`hay` (`some 0` for the empty needle). -/
def findSub (hay need : List Char) : Option Nat :=
  (List.range (hay.length + 1)).find? (fun i => need.isPrefixOf (hay.drop i))

/-- `fn get_u32(s, key)` of `src/blur_plugin/src/lib.rs`: lowercase both
strings, find the key substring, skip past it, skip non-digits, take the run
of consecutive ASCII digits, and parse it as a `u32` (`none` when the run is
empty or the value overflows `u32`).  Strings are modelled as `List Char`;
`Char.toLower` matches Rust `str::to_lowercase` on the ASCII range. -/
def get_u32 (s key : List Char) : Option Nat :=
  let lower := s.map Char.toLower
  let keyL := key.map Char.toLower
  match findSub lower keyL with
  | none => none
  | some pos =>
    let tail := lower.drop (pos + keyL.length)
    let digits := (tail.dropWhile (fun c => !c.isDigit)).takeWhile
      (fun c => c.isDigit)
    if digits = [] then none
    else
      let n := digits.foldl (fun a c => a * 10 + (c.toNat - 48)) 0
      if n < 2 ^ 32 then some n else none

/-- `usize::MAX + 1` on the 64-bit target: the bound the `checked_mul`
computation of `width * height * 4` is checked against. -/
def USIZE : Nat := 2 ^ 64

/-- `process_image` of `src/blur_plugin/src/lib.rs`.  A null `rgba_data`
pointer is `none` (the function returns without touching anything); a null
`params` pointer is `none` and is substituted by the empty string.  The result
is the final contents of the pixel buffer (`none` when the buffer pointer was
null). -/
def blur_process_image (K : BlurKernel) (width height : Nat)
    (rgba : Option (List Nat)) (params : Option (List Char)) :
    Option (List Nat) :=
  match rgba with
  | none => none
  | some buf =>
    let ps := params.getD []
    let radius := (get_u32 ps "radius".data).getD 3
    let iterations := (get_u32 ps "iterations".data).getD 1
    if width * height * 4 < USIZE then
      some (blur_in_place K width height buf radius iterations)
    else
      some buf

/-! ### `mirror_plugin`: `Params` and `process_image` -/

/-- `struct Params` of `src/mirror_plugin/src/lib.rs`: two required boolean
fields, no serde defaults. -/
structure Params where
  horizontal : Bool
  vertical : Bool
deriving DecidableEq, Repr

/-- `process_image` of `src/mirror_plugin/src/lib.rs`, parameterized by the
TOML deserializer `parse` of the external `toml` crate (`toml::from_str`
composed with serde into `Params`).  A null `rgba_data` pointer returns
status 1; a null `params` pointer is substituted by the empty string; a
failed parse returns status 1 with the buffer untouched; `checked_mul`
overflow returns status 1.  Result: `some (status, final buffer)`, `none`
meaning a panic inside the in-place passes. -/
def mirror_process_image (parse : List Char → Option Params)
    (width height : Nat) (rgba : Option (List Nat))
    (params : Option (List Char)) : Option (Nat × Option (List Nat)) :=
  match rgba with
  | none => some (1, none)
  | some buf =>
    let ps := params.getD []
    match parse ps with
    | none => some (1, some buf)
    | some cfg =>
      if width * height * 4 < USIZE then do
        let b1 ← if cfg.horizontal then
            flip_top_bottom_in_place width height buf
          else some buf
        let b2 ← if cfg.vertical then
            mirror_left_right_in_place width height b1
          else some b1
        some (0, some b2)
      else some (1, some buf)

/-! ### A concrete model of the mirror TOML deserializer -/

/-- Strip leading and trailing spaces. -/
def trimSpaces (l : List Char) : List Char :=
  ((l.dropWhile (fun c => c = ' ')).reverse.dropWhile (fun c => c = ' ')).reverse

/-- TOML boolean literal. -/
def parseBoolLit (l : List Char) : Option Bool :=
  if l = "true".data then some true
  else if l = "false".data then some false
  else none

/-- One `key = value` assignment line. -/
def parseLine (l : List Char) : Option (List Char × Bool) :=
  match l.splitOn '=' with
  | [k, v] =>
    match parseBoolLit (trimSpaces v) with
    | some b => some (trimSpaces k, b)
    | none => none
  | _ => none

/-- Modelled from the spec: the deserialization of `Params` performed by the
external `toml` crate (a dependency, not code under `src/`).  Spec §4.4: the
configuration is "a structured blob with two boolean fields, `horizontal` and
`vertical`; malformed configuration is a hard failure."  Only the fragment the
claims exercise is modelled: a document is a sequence of newline-separated
`key = true|false` assignments, and both required fields must be present —
in particular the empty document lacks them and fails. -/
def parseParamsToml (s : List Char) : Option Params :=
  let lines := ((s.splitOn '\n').map trimSpaces).filter (fun l => l ≠ [])
  match lines.mapM parseLine with
  | none => none
  | some kvs =>
    match kvs.lookup "horizontal".data, kvs.lookup "vertical".data with
    | some hz, some vt => some ⟨hz, vt⟩
    | _, _ => none

/-! ### Pointwise reasoning kit -/

/-- Bridge `getD` to `getElem?`. -/
theorem getD_eq (l : List Nat) (t : Nat) : l.getD t 0 = (l[t]?).getD 0 := by
  rw [List.getD_eq_getD_get?, List.get?_eq_getElem?]

theorem getD_take (l : List Nat) (i t : Nat) (ht : t < i) :
    (l.take i).getD t 0 = l.getD t 0 := by
  rw [getD_eq, getD_eq, List.getElem?_take, if_pos ht]

theorem getD_drop (l : List Nat) (i t : Nat) :
    (l.drop i).getD t 0 = l.getD (i + t) 0 := by
  rw [getD_eq, getD_eq, List.getElem?_drop]

theorem getD_set (l : List Nat) (i v t : Nat) :
    (l.set i v).getD t 0 =
      if i = t ∧ i < l.length then v else l.getD t 0 := by
  rw [getD_eq, getD_eq, List.getElem?_set]
  by_cases h1 : i = t
  · subst h1
    by_cases h2 : i < l.length
    · simp [h2]
    · simp only [if_pos rfl, h2, if_false, and_false, false_and, if_neg]
      rw [List.getElem?_eq_none (by omega)]
      simp [h2]
  · simp [h1]

/-- `r` agrees with `b` read through the index map `f` (and has the same
length). -/
def PtEq (r b : List Nat) (f : Nat → Nat) : Prop :=
  r.length = b.length ∧ ∀ t, r.getD t 0 = b.getD (f t) 0

theorem PtEq.refl_id (b : List Nat) : PtEq b b (fun t => t) :=
  ⟨rfl, fun _ => rfl⟩

theorem PtEq.comp {r b r2 : List Nat} {f g : Nat → Nat}
    (h1 : PtEq r b f) (h2 : PtEq r2 r g) : PtEq r2 b (fun t => f (g t)) :=
  ⟨h2.1.trans h1.1, fun t => (h2.2 t).trans (h1.2 (g t))⟩

theorem PtEq.congr_map {r b : List Nat} {f g : Nat → Nat}
    (h : PtEq r b f) (hfg : ∀ t, g t = f t) : PtEq r b g :=
  ⟨h.1, fun t => by rw [hfg t]; exact h.2 t⟩

/-- Two lists that agree on `getD` everywhere and have the same length are
equal. -/
theorem eq_of_getD {r b : List Nat} (hlen : r.length = b.length)
    (h : ∀ t, r.getD t 0 = b.getD t 0) : r = b := by
  refine List.ext_getElem hlen (fun n h1 h2 => ?_)
  rw [← List.getD_eq_getElem r 0 h1, ← List.getD_eq_getElem b 0 h2]
  exact h n

theorem PtEq.eq_self {r b : List Nat} {f : Nat → Nat} (h : PtEq r b f)
    (hid : ∀ t, b.getD (f t) 0 = b.getD t 0) : r = b :=
  eq_of_getD h.1 (fun t => (h.2 t).trans (hid t))

/-! ### `writeRange` and `extract` lemmas -/

theorem length_writeRange (l : List Nat) (i : Nat) (d : List Nat) :
    (writeRange l i d).length = l.length := by
  simp only [writeRange, List.length_append, List.length_take,
    List.length_drop]
  omega

theorem length_extract (l : List Nat) (i n : Nat) (h : i + n ≤ l.length) :
    (extract l i n).length = n := by
  simp only [extract, List.length_take, List.length_drop]
  omega

theorem getD_extract (l : List Nat) (i n t : Nat) (ht : t < n) :
    (extract l i n).getD t 0 = l.getD (i + t) 0 := by
  rw [extract, getD_eq, getD_eq, List.getElem?_take, if_pos ht,
    List.getElem?_drop]

theorem getD_writeRange (l : List Nat) (i : Nat) (d : List Nat)
    (h : i + d.length ≤ l.length) (t : Nat) :
    (writeRange l i d).getD t 0 =
      if i ≤ t ∧ t < i + d.length then d.getD (t - i) 0 else l.getD t 0 := by
  have hi : i ≤ l.length := by omega
  have htk : (l.take i).length = i := by
    rw [List.length_take]; omega
  have hd : d.take (l.length - i) = d :=
    List.take_of_length_le (by omega)
  rw [writeRange, hd, List.append_assoc]
  by_cases h1 : t < i
  · rw [List.getD_append _ _ _ _ (by omega), getD_take _ _ _ h1,
      if_neg (by omega)]
  · rw [List.getD_append_right _ _ _ _ (by omega), htk]
    by_cases h2 : t < i + d.length
    · rw [List.getD_append _ _ _ _ (by omega), if_pos (by omega)]
    · rw [List.getD_append_right _ _ _ _ (by omega), getD_drop,
        if_neg (by omega)]
      congr 1
      omega

/-! ### Index maps and the generic fold lemma -/

/-- Index map of exchanging the two disjoint same-length segments starting at
`a` and `b`. -/
def segSwapIdx (a b n t : Nat) : Nat :=
  if a ≤ t ∧ t < a + n then b + (t - a)
  else if b ≤ t ∧ t < b + n then a + (t - b)
  else t

theorem swapBytes_pt (buf : List Nat) (i j : Nat)
    (hi : i < buf.length) (hj : j < buf.length) :
    ∃ r, swapBytes buf i j = some r ∧
      PtEq r buf (fun t => if t = i then j else if t = j then i else t) := by
  refine ⟨_, by rw [swapBytes, if_pos ⟨hi, hj⟩], by simp, ?_⟩
  intro t
  simp only [getD_set, List.length_set]
  by_cases h1 : t = j <;> by_cases h2 : t = i
  · rw [if_pos ⟨h1.symm, hj⟩, if_pos h2]
    exact congrArg (fun x => buf.getD x 0) (h2.symm.trans h1)
  · rw [if_pos ⟨h1.symm, hj⟩, if_neg h2, if_pos h1]
  · rw [if_neg (fun hc => h1 hc.1.symm), if_pos ⟨h2.symm, hi⟩, if_pos h2]
  · rw [if_neg (fun hc => h1 hc.1.symm), if_neg (fun hc => h2 hc.1.symm),
      if_neg h2, if_neg h1]

/-- Structural recursion companion of `List.foldlM` over `List.range` in the
`Option` monad, peeling iterations off the end. -/
def optFold (f : List Nat → Nat → Option (List Nat)) :
    Nat → List Nat → Option (List Nat)
  | 0, buf => some buf
  | k + 1, buf => (optFold f k buf).bind (fun b => f b k)

theorem foldlM_range_eq_optFold (f : List Nat → Nat → Option (List Nat))
    (k : Nat) (buf : List Nat) :
    (List.range k).foldlM f buf = optFold f k buf := by
  induction k with
  | zero => rfl
  | succ k ih =>
    rw [List.range_succ, List.foldlM_append, optFold, ← ih]
    rcases (List.range k).foldlM f buf with _ | b <;> simp

/-- Generic invariant lemma: if every step `k < n` of an `Option`-valued fold
succeeds and is pointwise described by the index map `S k`, and the family
`F` of accumulated maps satisfies `F 0 = id` and `F (k+1) = F k ∘ S k`, then
the whole fold succeeds and is pointwise described by `F n`. -/
theorem optFold_pt (f : List Nat → Nat → Option (List Nat))
    (S : Nat → Nat → Nat) (F : Nat → Nat → Nat) (buf : List Nat) (n : Nat)
    (hstep : ∀ k r, k < n → r.length = buf.length →
      ∃ r2, f r k = some r2 ∧ PtEq r2 r (S k))
    (hF0 : ∀ t, F 0 t = t)
    (hFS : ∀ k t, k < n → F (k + 1) t = F k (S k t)) :
    ∀ k, k ≤ n → ∃ r, optFold f k buf = some r ∧ PtEq r buf (F k) := by
  intro k
  induction k with
  | zero => exact fun _ => ⟨buf, rfl, (PtEq.refl_id buf).congr_map hF0⟩
  | succ k ih =>
    intro hk
    obtain ⟨r, hr, hpt⟩ := ih (by omega)
    obtain ⟨r2, hr2, hpt2⟩ := hstep k r (by omega) hpt.1
    refine ⟨r2, ?_, ?_⟩
    · rw [optFold, hr, Option.some_bind, hr2]
    · exact (hpt.comp hpt2).congr_map (fun t => hFS k t (by omega))

/-! ### Division decomposition helpers -/

theorem decomp_div {rb : Nat} (hrb : 0 < rb) (a o : Nat) (ho : o < rb) :
    (a * rb + o) / rb = a := by
  rw [Nat.mul_comm a rb, Nat.mul_add_div hrb, Nat.div_eq_of_lt ho,
    Nat.add_zero]

theorem decomp_mod {rb : Nat} (a o : Nat) (ho : o < rb) :
    (a * rb + o) % rb = o := by
  rw [Nat.mul_comm a rb, Nat.mul_add_mod, Nat.mod_eq_of_lt ho]

/-- `t / rb = a` iff `t` lies in the `a`-th block of size `rb`. -/
theorem div_eq_iff_row {rb : Nat} (hrb : 0 < rb) (t a : Nat) :
    t / rb = a ↔ (a * rb ≤ t ∧ t < a * rb + rb) := by
  constructor
  · intro h
    have ho : t % rb < rb := Nat.mod_lt t hrb
    have hteq : t = t / rb * rb + t % rb := by
      rw [Nat.mul_comm]; exact (Nat.div_add_mod t rb).symm
    rw [h] at hteq
    omega
  · rintro ⟨h1, h2⟩
    have h3 : t = a * rb + (t - a * rb) := by omega
    rw [h3, decomp_div hrb _ _ (by omega)]

/-! ### Pointwise characterization of `flip_top_bottom_in_place` -/

/-- Index map of the whole top-bottom flip: byte `t` of the result is byte
`flipIdx rb h t` of the argument. -/
def flipIdx (rb h t : Nat) : Nat :=
  if t < h * rb then (h - 1 - t / rb) * rb + t % rb else t

/-- Index map after the first `k` iterations of the flip row loop: rows
`0..k-1` and `h-k..h-1` are exchanged, the rest untouched. -/
def flipPart (rb h k t : Nat) : Nat :=
  if t < h * rb ∧ (t / rb < k ∨ h - 1 - t / rb < k) then
    (h - 1 - t / rb) * rb + t % rb
  else t

theorem rowSwapStep_pt {rb h y : Nat} {buf : List Nat} (hrb : 0 < rb)
    (hy : y < h / 2) (hlen : h * rb ≤ buf.length) :
    ∃ r, rowSwapStep rb h buf y = some r ∧
      PtEq r buf (segSwapIdx (y * rb) ((h - 1 - y) * rb) rb) := by
  have h2y : 2 * y + 2 ≤ h := by omega
  have hm1 : (y + 1) * rb ≤ (h - 1 - y) * rb :=
    Nat.mul_le_mul_right rb (by omega)
  have hm2 : (h - 1 - y + 1) * rb ≤ h * rb :=
    Nat.mul_le_mul_right rb (by omega)
  have hsm1 : (y + 1) * rb = y * rb + rb := Nat.succ_mul y rb
  have hsm2 : (h - 1 - y + 1) * rb = (h - 1 - y) * rb + rb := Nat.succ_mul _ rb
  simp only [rowSwapStep]
  rw [if_pos (by omega :
    (h - 1 - y) * rb ≤ buf.length ∧ y * rb + rb ≤ (h - 1 - y) * rb ∧
      (h - 1 - y) * rb + rb ≤ buf.length)]
  have hex1 : (extract buf ((h - 1 - y) * rb) rb).length = rb :=
    length_extract _ _ _ (by omega)
  have hex2 : (extract buf (y * rb) rb).length = rb :=
    length_extract _ _ _ (by omega)
  refine ⟨_, rfl, ?_, ?_⟩
  · rw [length_writeRange, length_writeRange]
  · intro t
    rw [getD_writeRange _ _ _ (by rw [hex2, length_writeRange]; omega), hex2,
      getD_writeRange _ _ _ (by rw [hex1]; omega), hex1]
    by_cases hb : (h - 1 - y) * rb ≤ t ∧ t < (h - 1 - y) * rb + rb
    · rw [if_pos hb, getD_extract _ _ _ _ (by omega), segSwapIdx,
        if_neg (by omega), if_pos (by omega)]
    · rw [if_neg hb]
      by_cases ha : y * rb ≤ t ∧ t < y * rb + rb
      · rw [if_pos ha, getD_extract _ _ _ _ (by omega), segSwapIdx,
          if_pos (by omega)]
      · rw [if_neg ha, segSwapIdx, if_neg (by omega), if_neg (by omega)]

theorem flipPart_zero (rb h t : Nat) : flipPart rb h 0 t = t := by
  rw [flipPart, if_neg]
  rintro ⟨-, hc | hc⟩ <;> exact Nat.not_lt_zero _ hc

theorem flipPart_step {rb h k : Nat} (hrb : 0 < rb) (hk : k < h / 2)
    (t : Nat) :
    flipPart rb h (k + 1) t =
      flipPart rb h k (segSwapIdx (k * rb) ((h - 1 - k) * rb) rb t) := by
  have h2k : 2 * k + 2 ≤ h := by omega
  have hm1 : (k + 1) * rb ≤ (h - 1 - k) * rb :=
    Nat.mul_le_mul_right rb (by omega)
  have hm2 : (h - 1 - k + 1) * rb ≤ h * rb :=
    Nat.mul_le_mul_right rb (by omega)
  have hsm1 : (k + 1) * rb = k * rb + rb := Nat.succ_mul k rb
  have hsm2 : (h - 1 - k + 1) * rb = (h - 1 - k) * rb + rb := Nat.succ_mul _ rb
  by_cases ht : t < h * rb
  · have ho : t % rb < rb := Nat.mod_lt t hrb
    have hteq : t = t / rb * rb + t % rb := by
      rw [Nat.mul_comm]; exact (Nat.div_add_mod t rb).symm
    have hyh : t / rb < h := by rwa [Nat.div_lt_iff_lt_mul hrb]
    rcases eq_or_ne (t / rb) k with hyk | hyk
    · -- `t` lies in row `k`: it is sent to row `h-1-k`, already final.
      rw [hyk] at hteq
      rw [segSwapIdx, if_pos (by omega)]
      have hu : (h - 1 - k) * rb + (t - k * rb) =
          (h - 1 - k) * rb + t % rb := by omega
      rw [hu, flipPart, flipPart,
        if_pos ⟨ht, Or.inl (by omega)⟩,
        if_neg (fun hc => by
          rw [decomp_div hrb _ _ ho] at hc
          omega),
        hyk]
    · rcases eq_or_ne (t / rb) (h - 1 - k) with hyb | hyb
      · -- `t` lies in row `h-1-k`: it is sent to row `k`, already final.
        rw [hyb] at hteq
        rw [segSwapIdx, if_neg (by omega), if_pos (by omega)]
        have hu : k * rb + (t - (h - 1 - k) * rb) = k * rb + t % rb := by
          omega
        rw [hu, flipPart, flipPart,
          if_pos ⟨ht, Or.inr (by omega)⟩,
          if_neg (fun hc => by
            rw [decomp_div hrb _ _ ho] at hc
            omega),
          hyb]
        have : h - 1 - (h - 1 - k) = k := by omega
        rw [this]
      · -- `t` lies in neither exchanged row: both sides fix it.
        rw [segSwapIdx,
          if_neg (fun hc => hyk ((div_eq_iff_row hrb t k).mpr hc)),
          if_neg (fun hc => hyb ((div_eq_iff_row hrb t (h - 1 - k)).mpr hc)),
          flipPart, flipPart]
        by_cases hcond : t / rb < k ∨ h - 1 - t / rb < k
        · rw [if_pos ⟨ht, by omega⟩, if_pos ⟨ht, hcond⟩]
        · rw [if_neg (by omega), if_neg (by omega)]
  · -- `t` beyond the image: everything fixes it.
    rw [segSwapIdx, if_neg (by omega), if_neg (by omega), flipPart, flipPart,
      if_neg (by omega), if_neg (by omega)]

theorem flipPart_top {rb h : Nat} (hrb : 0 < rb) (t : Nat) :
    flipIdx rb h t = flipPart rb h (h / 2) t := by
  by_cases ht : t < h * rb
  · have ho : t % rb < rb := Nat.mod_lt t hrb
    have hteq : t = t / rb * rb + t % rb := by
      rw [Nat.mul_comm]; exact (Nat.div_add_mod t rb).symm
    have hyh : t / rb < h := by rwa [Nat.div_lt_iff_lt_mul hrb]
    by_cases hcond : t / rb < h / 2 ∨ h - 1 - t / rb < h / 2
    · rw [flipIdx, if_pos ht, flipPart, if_pos ⟨ht, hcond⟩]
    · -- only possible for the (odd `h`) middle row, which is fixed.
      have hmid : h - 1 - t / rb = t / rb := by omega
      rw [flipIdx, if_pos ht, flipPart, if_neg (fun hc => hcond hc.2), hmid]
      omega
  · rw [flipIdx, if_neg ht, flipPart, if_neg (by omega)]

/-- `flip_top_bottom_in_place` on a buffer holding the whole image: it
succeeds (no panic) and byte `t` of the result is byte `flipIdx (w*4) h t` of
the argument. -/
theorem flip_pt (w h : Nat) (buf : List Nat)
    (hlen : h * (w * 4) ≤ buf.length) :
    ∃ r, flip_top_bottom_in_place w h buf = some r ∧
      PtEq r buf (flipIdx (w * 4) h) := by
  simp only [flip_top_bottom_in_place]
  by_cases h0 : w * 4 = 0 ∨ h = 0
  · rw [if_pos h0]
    refine ⟨buf, rfl, (PtEq.refl_id buf).congr_map (fun t => ?_)⟩
    rcases h0 with h0 | h0 <;> rw [flipIdx, if_neg (by rw [h0]; simp)]
  · push_neg at h0
    rw [if_neg (by simp [h0.1, h0.2]), foldlM_range_eq_optFold]
    have hrb : 0 < w * 4 := by omega
    obtain ⟨r, hr, hpt⟩ := optFold_pt (rowSwapStep (w * 4) h)
      (fun k => segSwapIdx (k * (w * 4)) ((h - 1 - k) * (w * 4)) (w * 4))
      (flipPart (w * 4) h) buf (h / 2)
      (fun k r hk hlr => rowSwapStep_pt hrb hk (hlr ▸ hlen))
      (flipPart_zero (w * 4) h)
      (fun k t hk => flipPart_step hrb hk t)
      (h / 2) le_rfl
    exact ⟨r, hr, hpt.congr_map (flipPart_top hrb)⟩

/-! ### Pointwise characterization of `mirror_left_right_in_place` -/

/-- The bind chain of `swapPixel` over explicit segment bases. -/
def swapSeg4 (a b : Nat) (buf : List Nat) : Option (List Nat) := do
  let b0 ← swapBytes buf (a + 0) (b + 0)
  let b1 ← swapBytes b0 (a + 1) (b + 1)
  let b2 ← swapBytes b1 (a + 2) (b + 2)
  swapBytes b2 (a + 3) (b + 3)

theorem swapPixel_eq_swapSeg4 (w rb y x : Nat) (buf : List Nat) :
    swapPixel w rb y x buf =
      swapSeg4 (y * rb + x * 4) (y * rb + (w - 1 - x) * 4) buf := rfl

theorem segSwapIdx_zero (a b t : Nat) : segSwapIdx a b 0 t = t := by
  simp only [segSwapIdx]
  split_ifs <;> omega

theorem segSwapIdx_one (i j t : Nat) :
    (if t = i then j else if t = j then i else t) = segSwapIdx i j 1 t := by
  simp only [segSwapIdx]
  split_ifs <;> omega

/-- Exchanging segments of length `n + 1` is exchanging their last bytes and
then the segments of length `n`. -/
theorem segSwapIdx_ext (a b n : Nat) (hd : a + n + 1 ≤ b) (t : Nat) :
    segSwapIdx a b (n + 1) t =
      segSwapIdx a b n (segSwapIdx (a + n) (b + n) 1 t) := by
  simp only [segSwapIdx]
  split_ifs <;> omega

theorem swapSeg4_pt {a b : Nat} {buf : List Nat} (hd : a + 4 ≤ b)
    (hb : b + 4 ≤ buf.length) :
    ∃ r, swapSeg4 a b buf = some r ∧ PtEq r buf (segSwapIdx a b 4) := by
  obtain ⟨r0, hr0, hp0⟩ := swapBytes_pt buf (a + 0) (b + 0)
    (by omega) (by omega)
  have hl0 := hp0.1
  obtain ⟨r1, hr1, hp1⟩ := swapBytes_pt r0 (a + 1) (b + 1)
    (by omega) (by omega)
  have hl1 := hp1.1
  obtain ⟨r2, hr2, hp2⟩ := swapBytes_pt r1 (a + 2) (b + 2)
    (by omega) (by omega)
  have hl2 := hp2.1
  obtain ⟨r3, hr3, hp3⟩ := swapBytes_pt r2 (a + 3) (b + 3)
    (by omega) (by omega)
  refine ⟨r3, ?_, ?_⟩
  · simp only [swapSeg4, bind, hr0, Option.some_bind, hr1, hr2, hr3]
  · refine (((hp0.comp hp1).comp hp2).comp hp3).congr_map (fun t => ?_)
    rw [segSwapIdx_one (a + 3) (b + 3), segSwapIdx_one (a + 2) (b + 2),
      segSwapIdx_one (a + 1) (b + 1), segSwapIdx_one (a + 0) (b + 0),
      segSwapIdx_ext a b 3 (by omega), segSwapIdx_ext a b 2 (by omega),
      segSwapIdx_ext a b 1 (by omega), segSwapIdx_ext a b 0 (by omega),
      segSwapIdx_zero]

/-- Index map of the full left-right mirror of one pixel row of width `w`,
acting on the byte offset `o` inside the row. -/
def mirOff (w o : Nat) : Nat := (w - 1 - o / 4) * 4 + o % 4

/-- Index map after the first `k` pixel exchanges of one row starting at byte
`B`. -/
def mirRowPart (w B k t : Nat) : Nat :=
  if B ≤ t ∧ t < B + w * 4 ∧ ((t - B) / 4 < k ∨ w - 1 - (t - B) / 4 < k) then
    B + mirOff w (t - B)
  else t

/-- Index map of the whole mirror pass on the row starting at byte `B`. -/
def mirRowIdx (w B t : Nat) : Nat :=
  if B ≤ t ∧ t < B + w * 4 then B + mirOff w (t - B) else t

theorem mirRowPart_zero (w B t : Nat) : mirRowPart w B 0 t = t := by
  rw [mirRowPart, if_neg]
  rintro ⟨-, -, hc | hc⟩ <;> exact Nat.not_lt_zero _ hc

theorem mirRowPart_step {w k : Nat} (hk : k < w / 2) (B t : Nat) :
    mirRowPart w B (k + 1) t =
      mirRowPart w B k
        (segSwapIdx (B + k * 4) (B + (w - 1 - k) * 4) 4 t) := by
  simp only [mirRowPart, segSwapIdx, mirOff]
  split_ifs <;> omega

theorem mirRowPart_top (w B t : Nat) :
    mirRowIdx w B t = mirRowPart w B (w / 2) t := by
  simp only [mirRowIdx, mirRowPart, mirOff]
  split_ifs <;> omega

theorem mirrorRow_pt {w h y : Nat} {buf : List Nat} (hy : y < h)
    (hlen : h * (w * 4) ≤ buf.length) :
    ∃ r, mirrorRow w (w * 4) buf y = some r ∧
      PtEq r buf (mirRowIdx w (y * (w * 4))) := by
  have hm : (y + 1) * (w * 4) ≤ h * (w * 4) :=
    Nat.mul_le_mul_right (w * 4) (by omega)
  have hsm : (y + 1) * (w * 4) = y * (w * 4) + w * 4 := Nat.succ_mul y (w * 4)
  simp only [mirrorRow]
  rw [foldlM_range_eq_optFold]
  obtain ⟨r, hr, hpt⟩ := optFold_pt (fun b x => swapPixel w (w * 4) y x b)
    (fun x => segSwapIdx (y * (w * 4) + x * 4) (y * (w * 4) + (w - 1 - x) * 4)
      4)
    (mirRowPart w (y * (w * 4))) buf (w / 2)
    (fun x r hx hlr => by
      show ∃ r2, swapPixel w (w * 4) y x r = some r2 ∧
        PtEq r2 r (segSwapIdx (y * (w * 4) + x * 4)
          (y * (w * 4) + (w - 1 - x) * 4) 4)
      rw [swapPixel_eq_swapSeg4]
      exact swapSeg4_pt (by omega) (by omega))
    (mirRowPart_zero w (y * (w * 4)))
    (fun x t hx => mirRowPart_step hx (y * (w * 4)) t)
    (w / 2) le_rfl
  exact ⟨r, hr, hpt.congr_map (mirRowPart_top w (y * (w * 4)))⟩

/-- Index map after the first `k` rows have been mirrored. -/
def mirPart (w h k t : Nat) : Nat :=
  if t < h * (w * 4) ∧ t / (w * 4) < k then
    t / (w * 4) * (w * 4) + mirOff w (t % (w * 4))
  else t

/-- Index map of the whole left-right mirror: byte `t` of the result is byte
`mirIdx w h t` of the argument. -/
def mirIdx (w h t : Nat) : Nat :=
  if t < h * (w * 4) then
    t / (w * 4) * (w * 4) + mirOff w (t % (w * 4))
  else t

theorem mirPart_zero (w h t : Nat) : mirPart w h 0 t = t := by
  rw [mirPart, if_neg]
  rintro ⟨-, hc⟩
  exact Nat.not_lt_zero _ hc

theorem mirOff_lt {w o : Nat} (ho : o < w * 4) : mirOff w o < w * 4 := by
  simp only [mirOff]
  omega

theorem mirPart_step {w h k : Nat} (hw : 0 < w) (hk : k < h) (t : Nat) :
    mirPart w h (k + 1) t = mirPart w h k (mirRowIdx w (k * (w * 4)) t) := by
  have hrb : 0 < w * 4 := by omega
  have hm : (k + 1) * (w * 4) ≤ h * (w * 4) :=
    Nat.mul_le_mul_right (w * 4) (by omega)
  have hsm : (k + 1) * (w * 4) = k * (w * 4) + w * 4 := Nat.succ_mul k (w * 4)
  by_cases ht : t < h * (w * 4)
  · have ho : t % (w * 4) < w * 4 := Nat.mod_lt t hrb
    have hteq : t = t / (w * 4) * (w * 4) + t % (w * 4) := by
      rw [Nat.mul_comm]; exact (Nat.div_add_mod t (w * 4)).symm
    have hyh : t / (w * 4) < h := by rwa [Nat.div_lt_iff_lt_mul hrb]
    rcases eq_or_ne (t / (w * 4)) k with hyk | hyk
    · -- `t` lies in row `k`, which the row map mirrors; already final.
      rw [hyk] at hteq
      have hmo : mirOff w (t - k * (w * 4)) < w * 4 := mirOff_lt (by omega)
      rw [mirRowIdx, if_pos (by omega), mirPart, mirPart,
        if_pos ⟨ht, by omega⟩,
        if_neg (fun hc => by
          rw [decomp_div hrb _ _ hmo] at hc
          omega),
        hyk]
      have hoo : t - k * (w * 4) = t % (w * 4) := by omega
      rw [hoo]
    · -- `t` lies in another row: the row map fixes it.
      rw [mirRowIdx,
        if_neg (fun hc => hyk ((div_eq_iff_row hrb t k).mpr
          ⟨hc.1, by omega⟩)),
        mirPart, mirPart]
      by_cases hcond : t / (w * 4) < k
      · rw [if_pos ⟨ht, by omega⟩, if_pos ⟨ht, hcond⟩]
      · rw [if_neg (by omega), if_neg (by omega)]
  · -- `t` beyond the image: everything fixes it.
    rw [mirRowIdx, if_neg (by omega), mirPart, mirPart, if_neg (by omega),
      if_neg (by omega)]

theorem mirPart_top {w h : Nat} (hw : 0 < w) (t : Nat) :
    mirIdx w h t = mirPart w h h t := by
  have hrb : 0 < w * 4 := by omega
  by_cases ht : t < h * (w * 4)
  · have hyh : t / (w * 4) < h := by rwa [Nat.div_lt_iff_lt_mul hrb]
    rw [mirIdx, if_pos ht, mirPart, if_pos ⟨ht, hyh⟩]
  · rw [mirIdx, if_neg ht, mirPart, if_neg (by omega)]

/-- `mirror_left_right_in_place` on a buffer holding the whole image: it
succeeds (no panic) and byte `t` of the result is byte `mirIdx w h t` of the
argument. -/
theorem mirror_pt (w h : Nat) (buf : List Nat)
    (hlen : h * (w * 4) ≤ buf.length) :
    ∃ r, mirror_left_right_in_place w h buf = some r ∧
      PtEq r buf (mirIdx w h) := by
  simp only [mirror_left_right_in_place]
  by_cases h0 : w = 0 ∨ h = 0
  · rw [if_pos h0]
    refine ⟨buf, rfl, (PtEq.refl_id buf).congr_map (fun t => ?_)⟩
    rcases h0 with h0 | h0 <;> rw [mirIdx, if_neg (by rw [h0]; simp)]
  · push_neg at h0
    rw [if_neg (by simp [h0.1, h0.2]), foldlM_range_eq_optFold]
    have hw : 0 < w := by omega
    obtain ⟨r, hr, hpt⟩ := optFold_pt (mirrorRow w (w * 4))
      (fun y => mirRowIdx w (y * (w * 4)))
      (mirPart w h) buf h
      (fun y r hy hlr => mirrorRow_pt hy (hlr ▸ hlen))
      (mirPart_zero w h)
      (fun y t hy => mirPart_step hw hy t)
      h le_rfl
    exact ⟨r, hr, hpt.congr_map (mirPart_top hw)⟩

/-! ### Involution and commutation of the index maps -/

theorem flipIdx_invol (rb h t : Nat) :
    flipIdx rb h (flipIdx rb h t) = t := by
  rcases Nat.eq_zero_or_pos rb with hrb0 | hrb
  · have hz : ¬t < h * rb := by rw [hrb0, Nat.mul_zero]; omega
    have hinner : flipIdx rb h t = t := by rw [flipIdx, if_neg hz]
    rw [hinner, hinner]
  by_cases ht : t < h * rb
  · have ho : t % rb < rb := Nat.mod_lt t hrb
    have hq0 : 0 ≤ t / rb := Nat.zero_le _
    have hteq : t = t / rb * rb + t % rb := by
      rw [Nat.mul_comm]; exact (Nat.div_add_mod t rb).symm
    have hyh : t / rb < h := by rwa [Nat.div_lt_iff_lt_mul hrb]
    have hm : (h - 1 - t / rb + 1) * rb ≤ h * rb :=
      Nat.mul_le_mul_right rb (by omega)
    have hsm : (h - 1 - t / rb + 1) * rb = (h - 1 - t / rb) * rb + rb :=
      Nat.succ_mul _ rb
    have hinner : flipIdx rb h t = (h - 1 - t / rb) * rb + t % rb := by
      rw [flipIdx, if_pos ht]
    rw [hinner, flipIdx, if_pos (by omega),
      decomp_div hrb _ _ ho, decomp_mod _ _ ho]
    have hyy : h - 1 - (h - 1 - t / rb) = t / rb := by omega
    rw [hyy]
    omega
  · have hinner : flipIdx rb h t = t := by rw [flipIdx, if_neg ht]
    rw [hinner, hinner]

theorem mirOff_invol {w o : Nat} (ho : o < w * 4) :
    mirOff w (mirOff w o) = o := by
  simp only [mirOff]
  omega

theorem mirIdx_invol (w h t : Nat) : mirIdx w h (mirIdx w h t) = t := by
  by_cases ht : t < h * (w * 4)
  · have hrb : 0 < w * 4 := by
      rcases Nat.eq_zero_or_pos (w * 4) with h0 | h0
      · rw [h0, Nat.mul_zero] at ht; omega
      · exact h0
    have ho : t % (w * 4) < w * 4 := Nat.mod_lt t hrb
    have hq0 : 0 ≤ t / (w * 4) := Nat.zero_le _
    have hteq : t = t / (w * 4) * (w * 4) + t % (w * 4) := by
      rw [Nat.mul_comm]; exact (Nat.div_add_mod t (w * 4)).symm
    have hyh : t / (w * 4) < h := by rwa [Nat.div_lt_iff_lt_mul hrb]
    have hmo : mirOff w (t % (w * 4)) < w * 4 := mirOff_lt ho
    have hm : (t / (w * 4) + 1) * (w * 4) ≤ h * (w * 4) :=
      Nat.mul_le_mul_right (w * 4) (by omega)
    have hsm : (t / (w * 4) + 1) * (w * 4) = t / (w * 4) * (w * 4) + w * 4 :=
      Nat.succ_mul _ (w * 4)
    have hinner : mirIdx w h t =
        t / (w * 4) * (w * 4) + mirOff w (t % (w * 4)) := by
      rw [mirIdx, if_pos ht]
    rw [hinner, mirIdx, if_pos (by omega),
      decomp_div hrb _ _ hmo, decomp_mod _ _ hmo, mirOff_invol ho]
    omega
  · have hinner : mirIdx w h t = t := by rw [mirIdx, if_neg ht]
    rw [hinner, hinner]

theorem flipIdx_mirIdx_comm (w h t : Nat) :
    flipIdx (w * 4) h (mirIdx w h t) = mirIdx w h (flipIdx (w * 4) h t) := by
  by_cases ht : t < h * (w * 4)
  · have hrb : 0 < w * 4 := by
      rcases Nat.eq_zero_or_pos (w * 4) with h0 | h0
      · rw [h0, Nat.mul_zero] at ht; omega
      · exact h0
    have ho : t % (w * 4) < w * 4 := Nat.mod_lt t hrb
    have hq0 : 0 ≤ t / (w * 4) := Nat.zero_le _
    have hteq : t = t / (w * 4) * (w * 4) + t % (w * 4) := by
      rw [Nat.mul_comm]; exact (Nat.div_add_mod t (w * 4)).symm
    have hyh : t / (w * 4) < h := by rwa [Nat.div_lt_iff_lt_mul hrb]
    have hmo : mirOff w (t % (w * 4)) < w * 4 := mirOff_lt ho
    have hm1 : (t / (w * 4) + 1) * (w * 4) ≤ h * (w * 4) :=
      Nat.mul_le_mul_right (w * 4) (by omega)
    have hsm1 : (t / (w * 4) + 1) * (w * 4) =
        t / (w * 4) * (w * 4) + w * 4 := Nat.succ_mul _ (w * 4)
    have hm2 : (h - 1 - t / (w * 4) + 1) * (w * 4) ≤ h * (w * 4) :=
      Nat.mul_le_mul_right (w * 4) (by omega)
    have hsm2 : (h - 1 - t / (w * 4) + 1) * (w * 4) =
        (h - 1 - t / (w * 4)) * (w * 4) + w * 4 := Nat.succ_mul _ (w * 4)
    have hmi : mirIdx w h t =
        t / (w * 4) * (w * 4) + mirOff w (t % (w * 4)) := by
      rw [mirIdx, if_pos ht]
    have hfi : flipIdx (w * 4) h t =
        (h - 1 - t / (w * 4)) * (w * 4) + t % (w * 4) := by
      rw [flipIdx, if_pos ht]
    rw [hmi, flipIdx, if_pos (by omega),
      decomp_div hrb _ _ hmo, decomp_mod _ _ hmo,
      hfi, mirIdx, if_pos (by omega),
      decomp_div hrb _ _ ho, decomp_mod _ _ ho]
  · have hmi : mirIdx w h t = t := by rw [mirIdx, if_neg ht]
    have hfi : flipIdx (w * 4) h t = t := by rw [flipIdx, if_neg ht]
    rw [hmi, hfi, hmi]

/-! ### Structural lemmas about `blur_in_place` -/

theorem length_foldl_inv {α : Type} (l : List α)
    (g : List Nat → α → List Nat)
    (hg : ∀ t a, (g t a).length = t.length) :
    ∀ t, (l.foldl g t).length = t.length := by
  induction l with
  | nil => intro t; rfl
  | cons a l ih => intro t; rw [List.foldl_cons, ih, hg]

theorem length_blurTmp (K : BlurKernel) (w h r : Nat) (src : List Nat) :
    (blurTmp K w h r src).length = w * 4 * h := by
  rw [blurTmp, length_foldl_inv _ _
    (fun t y => length_foldl_inv _ _
      (fun t x => length_writeRange _ _ _) t),
    List.length_replicate]

theorem length_blurPass (K : BlurKernel) (w h r : Nat) (buf : List Nat) :
    (blurPass K w h r buf).length = buf.length := by
  rw [blurPass, length_writeRange]

theorem writeRange_zero_full (l d : List Nat) (h : d.length ≤ l.length) :
    writeRange l 0 d = d ++ l.drop d.length := by
  simp only [writeRange, List.take_zero, List.nil_append, Nat.zero_add,
    Nat.sub_zero]
  rw [List.take_of_length_le h]

theorem blurPass_eq_append (K : BlurKernel) (w h r : Nat) (buf : List Nat)
    (hlen : w * 4 * h ≤ buf.length) :
    blurPass K w h r buf =
      blurTmp K w h r (buf.take (w * 4 * h)) ++ buf.drop (w * 4 * h) := by
  rw [blurPass, writeRange_zero_full _ _ (by rw [length_blurTmp]; omega),
    length_blurTmp]

/-- The per-iteration pass never touches bytes beyond `expected_len`. -/
theorem blurPass_drop (K : BlurKernel) (w h r : Nat) (buf : List Nat)
    (hlen : w * 4 * h ≤ buf.length) :
    (blurPass K w h r buf).drop (w * 4 * h) = buf.drop (w * 4 * h) := by
  rw [blurPass_eq_append K w h r buf hlen]
  generalize hl : blurTmp K w h r (buf.take (w * 4 * h)) = d
  have hd : d.length = w * 4 * h := by rw [← hl, length_blurTmp]
  rw [← hd, List.drop_left]

/-- The per-iteration pass reads only the first `expected_len` bytes. -/
theorem blurPass_take (K : BlurKernel) (w h r : Nat) (b1 b2 : List Nat)
    (hlen1 : w * 4 * h ≤ b1.length) (hlen2 : w * 4 * h ≤ b2.length)
    (htake : b1.take (w * 4 * h) = b2.take (w * 4 * h)) :
    (blurPass K w h r b1).take (w * 4 * h) =
      (blurPass K w h r b2).take (w * 4 * h) := by
  rw [blurPass_eq_append K w h r b1 hlen1, blurPass_eq_append K w h r b2
    hlen2, htake]
  generalize hl : blurTmp K w h r (b2.take (w * 4 * h)) = d
  have hd : d.length = w * 4 * h := by rw [← hl, length_blurTmp]
  rw [← hd, List.take_left, List.take_left]

theorem blurPass_iter_len_drop (K : BlurKernel) (w h r : Nat) (n : Nat) :
    ∀ buf : List Nat, w * 4 * h ≤ buf.length →
      ((blurPass K w h r)^[n] buf).length = buf.length ∧
      ((blurPass K w h r)^[n] buf).drop (w * 4 * h) =
        buf.drop (w * 4 * h) := by
  induction n with
  | zero => exact fun buf _ => ⟨rfl, rfl⟩
  | succ n ih =>
    intro buf hlen
    rw [Function.iterate_succ_apply]
    obtain ⟨ih1, ih2⟩ := ih (blurPass K w h r buf)
      (by rw [length_blurPass]; omega)
    exact ⟨ih1.trans (length_blurPass K w h r buf),
      ih2.trans (blurPass_drop K w h r buf hlen)⟩

theorem blurPass_iter_take (K : BlurKernel) (w h r : Nat) (n : Nat) :
    ∀ b1 b2 : List Nat, w * 4 * h ≤ b1.length → w * 4 * h ≤ b2.length →
      b1.take (w * 4 * h) = b2.take (w * 4 * h) →
      ((blurPass K w h r)^[n] b1).take (w * 4 * h) =
        ((blurPass K w h r)^[n] b2).take (w * 4 * h) := by
  induction n with
  | zero => exact fun b1 b2 _ _ htake => htake
  | succ n ih =>
    intro b1 b2 hlen1 hlen2 htake
    rw [Function.iterate_succ_apply, Function.iterate_succ_apply]
    exact ih (blurPass K w h r b1) (blurPass K w h r b2)
      (by rw [length_blurPass]; omega) (by rw [length_blurPass]; omega)
      (blurPass_take K w h r b1 b2 hlen1 hlen2 htake)

/-! ### Claim theorems -/

/-- A concrete kernel used to instantiate the abstract blur kernel in
witnesses. -/
def constKernel : BlurKernel := fun _ _ _ _ _ _ => [0, 0, 0, 0]

/-- C4: for every width, height and every buffer of length `width*height*4`,
applying `flip_top_bottom_in_place` twice restores the buffer byte-for-byte
(the pass is an involution), and neither application panics. -/
theorem C4_flip_involution (w h : Nat) (buf : List Nat)
    (hbuf : buf.length = w * h * 4) :
    (flip_top_bottom_in_place w h buf).bind (flip_top_bottom_in_place w h) =
      some buf := by
  have hc : h * (w * 4) ≤ buf.length := by
    have he : w * h * 4 = h * (w * 4) := by ring
    omega
  obtain ⟨r1, hr1, hp1⟩ := flip_pt w h buf hc
  obtain ⟨r2, hr2, hp2⟩ := flip_pt w h r1 (by rw [hp1.1]; exact hc)
  rw [hr1, Option.some_bind, hr2]
  exact congrArg some ((hp1.comp hp2).eq_self
    (fun t => by rw [flipIdx_invol]))

theorem C4_witness :
    ([10, 11, 12, 13, 20, 21, 22, 23] : List Nat).length = 1 * 2 * 4 ∧
    (flip_top_bottom_in_place 1 2 [10, 11, 12, 13, 20, 21, 22, 23]).bind
      (flip_top_bottom_in_place 1 2) =
      some [10, 11, 12, 13, 20, 21, 22, 23] :=
  ⟨by decide, C4_flip_involution 1 2 _ (by decide)⟩

/-- C5: for every width, height and every buffer of length `width*height*4`,
applying `mirror_left_right_in_place` twice restores the buffer byte-for-byte
(the pass is an involution), and neither application panics. -/
theorem C5_mirror_involution (w h : Nat) (buf : List Nat)
    (hbuf : buf.length = w * h * 4) :
    (mirror_left_right_in_place w h buf).bind
      (mirror_left_right_in_place w h) = some buf := by
  have hc : h * (w * 4) ≤ buf.length := by
    have he : w * h * 4 = h * (w * 4) := by ring
    omega
  obtain ⟨r1, hr1, hp1⟩ := mirror_pt w h buf hc
  obtain ⟨r2, hr2, hp2⟩ := mirror_pt w h r1 (by rw [hp1.1]; exact hc)
  rw [hr1, Option.some_bind, hr2]
  exact congrArg some ((hp1.comp hp2).eq_self
    (fun t => by rw [mirIdx_invol]))

theorem C5_witness :
    ([10, 11, 12, 13, 20, 21, 22, 23] : List Nat).length = 2 * 1 * 4 ∧
    (mirror_left_right_in_place 2 1 [10, 11, 12, 13, 20, 21, 22, 23]).bind
      (mirror_left_right_in_place 2 1) =
      some [10, 11, 12, 13, 20, 21, 22, 23] :=
  ⟨by decide, C5_mirror_involution 2 1 _ (by decide)⟩

/-- C6: for every width, height and every buffer of length `width*height*4`,
flipping top-bottom and then mirroring left-right gives the same buffer as
mirroring left-right and then flipping top-bottom (the two axis passes
commute). -/
theorem C6_axes_commute (w h : Nat) (buf : List Nat)
    (hbuf : buf.length = w * h * 4) :
    (flip_top_bottom_in_place w h buf).bind
      (mirror_left_right_in_place w h) =
      (mirror_left_right_in_place w h buf).bind
        (flip_top_bottom_in_place w h) := by
  have hc : h * (w * 4) ≤ buf.length := by
    have he : w * h * 4 = h * (w * 4) := by ring
    omega
  obtain ⟨r1, hr1, hp1⟩ := flip_pt w h buf hc
  obtain ⟨r2, hr2, hp2⟩ := mirror_pt w h r1 (by rw [hp1.1]; exact hc)
  obtain ⟨s1, hs1, hq1⟩ := mirror_pt w h buf hc
  obtain ⟨s2, hs2, hq2⟩ := flip_pt w h s1 (by rw [hq1.1]; exact hc)
  rw [hr1, hs1, Option.some_bind, Option.some_bind, hr2, hs2]
  have A := hp1.comp hp2
  have B := hq1.comp hq2
  exact congrArg some (eq_of_getD (A.1.trans B.1.symm) (fun t =>
    ((A.2 t).trans (congrArg (fun i => buf.getD i 0)
      (flipIdx_mirIdx_comm w h t))).trans (B.2 t).symm))

theorem C6_witness :
    ([1, 2, 3, 4, 5, 6, 7, 8, 9, 10, 11, 12, 13, 14, 15, 16] :
      List Nat).length = 2 * 2 * 4 ∧
    (flip_top_bottom_in_place 2 2
        [1, 2, 3, 4, 5, 6, 7, 8, 9, 10, 11, 12, 13, 14, 15, 16]).bind
      (mirror_left_right_in_place 2 2) =
      (mirror_left_right_in_place 2 2
        [1, 2, 3, 4, 5, 6, 7, 8, 9, 10, 11, 12, 13, 14, 15, 16]).bind
        (flip_top_bottom_in_place 2 2) :=
  ⟨by decide, C6_axes_commute 2 2 _ (by decide)⟩

/-- C2 (counterexample): the claim "for every buffer whose length differs
from `width*height*4`, both the blur pass and the mirror passes leave the
buffer unchanged and do not panic" fails: at `width = 1`, `height = 2` the
empty buffer has length `0 ≠ 8`, yet `flip_top_bottom_in_place` panics
(`split_at_mut(4)` on a zero-length slice), modelled by `none`. -/
theorem C2_counterexample :
    ([] : List Nat).length ≠ 1 * 2 * 4 ∧
    flip_top_bottom_in_place 1 2 ([] : List Nat) = none := by
  constructor
  · decide
  · decide

/-- C2 (amended): `blur_in_place` leaves every buffer shorter than
`width*height*4` unchanged; the mirror passes do not panic whenever the
buffer has length at least `width*height*4` (in particular at the exact
length `process_image` always passes), but may panic on shorter buffers. -/
theorem C2_amended_mismatch (K : BlurKernel) (w h r it : Nat)
    (buf : List Nat) :
    (buf.length < w * h * 4 → blur_in_place K w h buf r it = buf) ∧
    (w * h * 4 ≤ buf.length →
      (flip_top_bottom_in_place w h buf).isSome ∧
      (mirror_left_right_in_place w h buf).isSome) := by
  constructor
  · intro hlen
    have he : w * h * 4 = w * 4 * h := by ring
    rw [blur_in_place]
    split_ifs with h1 h2
    · rfl
    · rfl
    · omega
  · intro hlen
    have he : w * h * 4 = h * (w * 4) := by ring
    obtain ⟨r1, hr1, -⟩ := flip_pt w h buf (by omega)
    obtain ⟨r2, hr2, -⟩ := mirror_pt w h buf (by omega)
    rw [hr1, hr2]
    exact ⟨rfl, rfl⟩

theorem C2_amended_witness :
    (([1, 2, 3] : List Nat).length < 1 * 2 * 4 ∧
      blur_in_place constKernel 1 2 [1, 2, 3] 3 1 = [1, 2, 3]) ∧
    (2 * 1 * 4 ≤ ([1, 2, 3, 4, 5, 6, 7, 8] : List Nat).length ∧
      (flip_top_bottom_in_place 2 1 [1, 2, 3, 4, 5, 6, 7, 8]).isSome ∧
      (mirror_left_right_in_place 2 1 [1, 2, 3, 4, 5, 6, 7, 8]).isSome) :=
  ⟨⟨by decide,
      (C2_amended_mismatch constKernel 1 2 3 1 [1, 2, 3]).1 (by decide)⟩,
    ⟨by decide,
      (C2_amended_mismatch constKernel 2 1 3 1
        [1, 2, 3, 4, 5, 6, 7, 8]).2 (by decide)⟩⟩

/-- C8: for every buffer, if `radius = 0` or `iterations = 0` or `width = 0`
or `height = 0`, `blur_in_place` leaves the buffer byte-for-byte
unchanged. -/
theorem C8_blur_zero_noop (K : BlurKernel) (w h r it : Nat) (buf : List Nat)
    (hz : r = 0 ∨ it = 0 ∨ w = 0 ∨ h = 0) :
    blur_in_place K w h buf r it = buf := by
  rw [blur_in_place, if_pos (by tauto)]

theorem C8_witness :
    ((0 : Nat) = 0 ∨ (1 : Nat) = 0 ∨ (2 : Nat) = 0 ∨ (2 : Nat) = 0) ∧
    blur_in_place constKernel 2 2 [1, 2, 3, 4] 0 1 = [1, 2, 3, 4] :=
  ⟨Or.inl rfl, C8_blur_zero_noop constKernel 2 2 0 1 _ (Or.inl rfl)⟩

/-- C3: for every width, height, radius, every `k`, and every buffer,
`blur_in_place` with `iterations = k` run once equals `blur_in_place` with
`iterations = 1` applied `k` times in sequence. -/
theorem C3_blur_iterations_compose (K : BlurKernel) (w h r k : Nat)
    (buf : List Nat) :
    blur_in_place K w h buf r k =
      (fun b => blur_in_place K w h b r 1)^[k] buf := by
  by_cases h0 : w = 0 ∨ h = 0 ∨ r = 0
  · have hfix : ∀ n, (fun b => blur_in_place K w h b r 1)^[n] buf = buf := by
      intro n
      induction n with
      | zero => rfl
      | succ n ihn =>
        rw [Function.iterate_succ_apply', ihn]
        show blur_in_place K w h buf r 1 = buf
        rw [blur_in_place, if_pos (by tauto)]
    rw [blur_in_place, if_pos (by tauto), hfix k]
  · push_neg at h0
    induction k generalizing buf with
    | zero =>
      rw [blur_in_place, if_pos (by tauto), Function.iterate_zero_apply]
    | succ k ih =>
      by_cases hlen : buf.length < w * 4 * h
      · have h1 : ∀ n, blur_in_place K w h buf r n = buf := fun n => by
          rw [blur_in_place]
          split_ifs <;> rfl
        rw [h1, Function.iterate_succ_apply, h1, ← ih buf, h1]
      · push_neg at hlen
        have h1 : blur_in_place K w h buf r (k + 1) =
            (blurPass K w h r)^[k] (blurPass K w h r buf) := by
          rw [blur_in_place, if_neg (by omega), if_neg (by omega),
            Function.iterate_succ_apply]
        have h2 : blur_in_place K w h buf r 1 = blurPass K w h r buf := by
          rw [blur_in_place, if_neg (by omega), if_neg (by omega),
            Function.iterate_one]
        have h3 : blur_in_place K w h (blurPass K w h r buf) r k =
            (blurPass K w h r)^[k] (blurPass K w h r buf) := by
          rcases Nat.eq_zero_or_pos k with hk | hk
          · rw [hk, blur_in_place, if_pos (by tauto),
              Function.iterate_zero_apply]
          · rw [blur_in_place, if_neg (by omega),
              if_neg (by rw [length_blurPass]; omega)]
        rw [h1, Function.iterate_succ_apply, h2,
          ← ih (blurPass K w h r buf), h3]

/-- C10: for nonzero width, height, radius and iterations and every buffer
strictly longer than `width*height*4`, `blur_in_place` writes only the first
`width*height*4` bytes (everything from that index on is returned unchanged)
and reads only the first `width*height*4` bytes (the returned prefix depends
only on the argument's prefix, for arguments of equal length). -/
theorem C10_blur_frame (K : BlurKernel) (w h r it : Nat) (buf : List Nat)
    (hw : w ≠ 0) (hh : h ≠ 0) (hr : r ≠ 0) (hit : it ≠ 0)
    (hlen : w * h * 4 < buf.length) :
    (blur_in_place K w h buf r it).drop (w * h * 4) =
      buf.drop (w * h * 4) ∧
    (∀ b2 : List Nat, b2.length = buf.length →
      b2.take (w * h * 4) = buf.take (w * h * 4) →
      (blur_in_place K w h b2 r it).take (w * h * 4) =
        (blur_in_place K w h buf r it).take (w * h * 4)) := by
  have he : w * h * 4 = w * 4 * h := by ring
  constructor
  · rw [blur_in_place, if_neg (by omega), if_neg (by omega), he]
    exact (blurPass_iter_len_drop K w h r it buf (by omega)).2
  · intro b2 hlen2 htake2
    rw [blur_in_place, blur_in_place, if_neg (by omega), if_neg (by omega),
      if_neg (by omega), if_neg (by omega), he]
    exact blurPass_iter_take K w h r it b2 buf (by omega) (by omega)
      (by rw [← he]; exact htake2)

theorem C10_witness :
    ((1 : Nat) ≠ 0 ∧ (1 : Nat) ≠ 0 ∧ (1 : Nat) ≠ 0 ∧ (1 : Nat) ≠ 0 ∧
      1 * 1 * 4 < ([1, 2, 3, 4, 9] : List Nat).length) ∧
    (blur_in_place constKernel 1 1 [1, 2, 3, 4, 9] 1 1).drop (1 * 1 * 4) =
      ([1, 2, 3, 4, 9] : List Nat).drop (1 * 1 * 4) ∧
    (blur_in_place constKernel 1 1 [1, 2, 3, 4, 7] 1 1).take (1 * 1 * 4) =
      (blur_in_place constKernel 1 1 [1, 2, 3, 4, 9] 1 1).take (1 * 1 * 4) :=
  ⟨⟨by decide, by decide, by decide, by decide, by decide⟩,
    (C10_blur_frame constKernel 1 1 1 1 [1, 2, 3, 4, 9] (by decide)
      (by decide) (by decide) (by decide) (by decide)).1,
    (C10_blur_frame constKernel 1 1 1 1 [1, 2, 3, 4, 9] (by decide)
      (by decide) (by decide) (by decide) (by decide)).2 [1, 2, 3, 4, 7]
      (by decide) (by decide)⟩

/-- C7: for every non-null buffer and every non-null config string rejected
by the TOML deserialization of `Params` (for any deserializer `parse`),
Mirror's `process_image` returns the failure status `1` and leaves every byte
of the buffer unchanged. -/
theorem C7_mirror_invalid_config (parse : List Char → Option Params)
    (w h : Nat) (buf : List Nat) (s : List Char) (hp : parse s = none) :
    mirror_process_image parse w h (some buf) (some s) =
      some (1, some buf) := by
  simp only [mirror_process_image, Option.getD_some, hp]

theorem C7_witness :
    parseParamsToml "horizontal = maybe".data = none ∧
    mirror_process_image parseParamsToml 1 1 (some [1, 2, 3, 4])
      (some "horizontal = maybe".data) = some (1, some [1, 2, 3, 4]) :=
  ⟨by decide,
    C7_mirror_invalid_config parseParamsToml 1 1 [1, 2, 3, 4] _ (by decide)⟩

/-- C1 (counterexample): the claim says that a null config makes Mirror run
with defaults and return success status `0`; in fact Mirror substitutes the
empty string, whose TOML parse fails (the required boolean fields are
missing), so `process_image` returns status `1` with the buffer untouched. -/
theorem C1_counterexample :
    mirror_process_image parseParamsToml 1 1 (some [0, 0, 0, 0]) none =
      some (1, some [0, 0, 0, 0]) ∧ (1 : Nat) ≠ 0 := by
  constructor
  · decide
  · decide

/-- C1 (amended): a null config pointer is substituted by the empty
configuration string by both filters; Blur then selects the defaults
`radius = 3`, `iterations = 1` and proceeds as a normal call, while Mirror
fails to deserialize the empty document (its two boolean fields are required)
and returns status `1` with the buffer untouched. -/
theorem C1_null_config (K : BlurKernel) (parse : List Char → Option Params)
    (w h : Nat) (buf : List Nat) (hov : w * h * 4 < USIZE)
    (hp : parse [] = none) :
    blur_process_image K w h (some buf) none =
      some (blur_in_place K w h buf 3 1) ∧
    mirror_process_image parse w h (some buf) none =
      some (1, some buf) := by
  constructor
  · have h1 : get_u32 [] "radius".data = none := by decide
    have h2 : get_u32 [] "iterations".data = none := by decide
    simp only [blur_process_image, Option.getD_none, h1, h2]
    rw [if_pos hov]
  · simp only [mirror_process_image, Option.getD_none, hp]

theorem C1_witness :
    (1 * 1 * 4 < USIZE ∧ parseParamsToml [] = none) ∧
    blur_process_image constKernel 1 1 (some [9, 9, 9, 9]) none =
      some (blur_in_place constKernel 1 1 [9, 9, 9, 9] 3 1) ∧
    mirror_process_image parseParamsToml 1 1 (some [9, 9, 9, 9]) none =
      some (1, some [9, 9, 9, 9]) :=
  ⟨⟨by decide, by decide⟩,
    C1_null_config constKernel parseParamsToml 1 1 [9, 9, 9, 9]
      (by decide) (by decide)⟩

/-- C9: Blur's parameter extraction on the config string `"foo=bar"` yields
`none` for both keys, so `process_image` falls back to `radius = 3`,
`iterations = 1` and proceeds as a normal call; more generally, absence of
the key substring, or an empty digit run after it, makes `get_u32` return
`none` (which `unwrap_or` replaces by the default). -/
theorem C9_blur_default_fallback :
    get_u32 "foo=bar".data "radius".data = none ∧
    get_u32 "foo=bar".data "iterations".data = none ∧
    (∀ (K : BlurKernel) (w h : Nat) (buf : List Nat),
      w * h * 4 < USIZE →
      blur_process_image K w h (some buf) (some "foo=bar".data) =
        some (blur_in_place K w h buf 3 1)) ∧
    (∀ s key : List Char,
      findSub (s.map Char.toLower) (key.map Char.toLower) = none →
      get_u32 s key = none) ∧
    (∀ (s key : List Char) (pos : Nat),
      findSub (s.map Char.toLower) (key.map Char.toLower) = some pos →
      (((s.map Char.toLower).drop
          (pos + (key.map Char.toLower).length)).dropWhile
        (fun c => !c.isDigit)).takeWhile (fun c => c.isDigit) = [] →
      get_u32 s key = none) := by
  refine ⟨by decide, by decide, ?_, ?_, ?_⟩
  · intro K w h buf hov
    have h1 : get_u32 "foo=bar".data "radius".data = none := by decide
    have h2 : get_u32 "foo=bar".data "iterations".data = none := by decide
    simp only [blur_process_image, Option.getD_some, h1, h2,
      Option.getD_none]
    rw [if_pos hov]
  · intro s key hfind
    simp only [get_u32, hfind]
  · intro s key pos hfind hdig
    simp only [get_u32, hfind, hdig]
    rw [if_pos trivial]

theorem C9_witness :
    1 * 1 * 4 < USIZE ∧
    blur_process_image constKernel 1 1 (some [1, 2, 3, 4])
      (some "foo=bar".data) =
      some (blur_in_place constKernel 1 1 [1, 2, 3, 4] 3 1) :=
  ⟨by decide,
    C9_blur_default_fallback.2.2.1 constKernel 1 1 [1, 2, 3, 4] (by decide)⟩

end ImageFFI
